import Mathlib

/-
  Verification development for the citation-extraction pipeline in
  scripts/citations.py: pattern-based extraction of legal citations,
  aggregation of (key, page) pairs, memoized resolution, link building,
  provenance references, and the per-decision run loop.
-/

namespace Citations

/-- Python re class \s, restricted to the ASCII whitespace characters. -/
def isSpaceB (c : Char) : Bool :=
  c == ' ' || c == '\t' || c == '\n' || c == '\r' || c == '\x0b' || c == '\x0c'

/-- Python re class \w, restricted to ASCII word characters. -/
def isWordB (c : Char) : Bool :=
  c.isAlphanum || c == '_'

/-- Regular-expression abstract syntax, covering exactly the constructs used
by the five citation patterns in extract_citations: literals, character
classes, concatenation, prioritized alternation, greedy option, greedy star
of a character class (the only starred subexpressions in the source are the
single-character classes of \s+, \d+, \w+ and I*), and numbered capture
groups. -/
inductive RE where
  | eps : RE
  | lit : Char → RE
  | cls : (Char → Bool) → RE
  | seq : RE → RE → RE
  | alt : RE → RE → RE
  | opt : RE → RE
  | starC : (Char → Bool) → RE
  | group : Nat → RE → RE

/-- Capture list: group index paired with the captured text. -/
abbrev Caps := List (Nat × String)

/-- Text consumed between two suffixes of the input. -/
def caplen (before after : List Char) : String :=
  String.mk (before.take (before.length - after.length))

/-- Alternatives of a greedy star over a character class, as the list of
possible remaining suffixes in priority order: the longest consumed run of
class characters first, down to consuming nothing. -/
def starAlts (p : Char → Bool) : List Char → List (List Char)
  | [] => [[]]
  | c :: rest => if p c then starAlts p rest ++ [c :: rest] else [c :: rest]

/-- Backtracking matcher. Returns all ways to match a prefix of the input,
as (remaining input, captures), in Python re priority order: alternation
prefers its left branch, option and star are greedy. -/
def mtch : RE → List Char → List (List Char × Caps)
  | .eps, s => [(s, [])]
  | .lit _, [] => []
  | .lit c, c1 :: rest => if c1 = c then [(rest, [])] else []
  | .cls _, [] => []
  | .cls p, c1 :: rest => if p c1 then [(rest, [])] else []
  | .seq a b, s =>
      (mtch a s).flatMap fun r =>
        (mtch b r.1).map fun r2 => (r2.1, r.2 ++ r2.2)
  | .alt a b, s => mtch a s ++ mtch b s
  | .opt r, s => mtch r s ++ [(s, [])]
  | .starC p, s => (starAlts p s).map fun s1 => (s1, [])
  | .group i r, s =>
      (mtch r s).map fun r1 => (r1.1, r1.2 ++ [(i, caplen s r1.1)])

/-- Scanner worker: report the highest-priority match anchored at the
current position and continue after it, otherwise advance one character.
The counter bounds the number of steps; every step shortens the input, so
the input length plus one is always enough. -/
def scanGo : Nat → RE → List Char → List (String × Caps)
  | 0, _, _ => []
  | n + 1, re, s =>
      match (mtch re s).head? with
      | some r =>
          if r.1.length < s.length then
            (caplen s r.1, r.2) :: scanGo n re r.1
          else
            match s with
            | [] => []
            | _ :: t => scanGo n re t
      | none =>
          match s with
          | [] => []
          | _ :: t => scanGo n re t

/-- Scanner modelling re.finditer: each reported match is
(matched text, captures). -/
def scan (re : RE) (s : List Char) : List (String × Caps) :=
  scanGo (s.length + 1) re s

/-- Sequence a list of expressions. -/
def rseq : List RE → RE
  | [] => .eps
  | r :: rs => .seq r (rseq rs)

/-- Literal string. -/
def rstr (s : String) : RE := rseq (s.toList.map .lit)

/-- Greedy plus of a character class, p+ as p p*. -/
def rplus (p : Char → Bool) : RE := .seq (.cls p) (.starC p)

/-- Exact repetition r{n}. -/
def repN (r : RE) : Nat → RE
  | 0 => .eps
  | n+1 => .seq r (repN r n)

def wsp : RE := .cls isSpaceB

def dig : RE := .cls Char.isDigit

def wrd : RE := .cls isWordB

/-- Pattern 1 of extract_citations:
NJA\s+\d\x7b4\x7d\s+s\.?\s+\d+(\s+I*V)? . -/
def njaRE : RE :=
  rseq [rstr "NJA", rplus isSpaceB, repN dig 4, rplus isSpaceB, .lit 's', .opt (.lit '.'),
        rplus isSpaceB, rplus Char.isDigit, .opt (.group 1 (rseq [rplus isSpaceB, .starC (fun c => c == 'I'), .lit 'V']))]

/-- Shared identifier core \d\x7b4\x7d\/(?:\d\x7b2\x7d|2000): followed by a
family-specific tail. -/
def yearSerial (tail : RE) : RE :=
  rseq [repN dig 4, .lit '/', .alt (repN dig 2) (rstr "2000"), .lit ':', tail]

/-- Shared optional page suffix (?:\s+s\.\s+(\d+))? capturing group 2. -/
def pageOpt : RE :=
  .opt (rseq [rplus isSpaceB, .lit 's', .lit '.', rplus isSpaceB, .group 2 (rplus Char.isDigit)])

/-- Pattern 2 of extract_citations:
[pP]rop(?:osition|\.)?\s+(\d\x7b4\x7d\/(?:\d\x7b2\x7d|2000):\d+)(?:\s+s\.\s+(\d+))? . -/
def propRE : RE :=
  rseq [.cls (fun c => c == 'p' || c == 'P'), rstr "rop",
        .opt (.alt (rstr "osition") (.lit '.')),
        rplus isSpaceB, .group 1 (yearSerial (rplus Char.isDigit)), pageOpt]

/-- Pattern 3 of extract_citations:
(SOU\s+\d\x7b4\x7d:\d+)(?:\s+s\.\s+(\d+))? . -/
def souRE : RE :=
  rseq [.group 1 (rseq [rstr "SOU", rplus isSpaceB, repN dig 4, .lit ':', rplus Char.isDigit]), pageOpt]

/-- Pattern 4 of extract_citations. The source file's alternative to the
abbreviation dot is the literal mojibake text U+00C3 U+00A4 followed by
nkande, exactly as the bytes of the Python string literal decode. -/
def betRE : RE :=
  rseq [.cls (fun c => c == 'b' || c == 'B'), rstr "et",
        .opt (.alt (rstr "\u00C3\u00A4nkande") (.lit '.')),
        rplus isSpaceB, .group 1 (yearSerial (.seq (rplus isWordB) (rplus Char.isDigit))), pageOpt]

/-- Pattern 5 of extract_citations:
[mM]ot(?:ion|\.)?\s+(\d\x7b4\x7d\/(?:\d\x7b2\x7d|2000):\d\x7b2\x7d)(?:\s+s\.\s+(\d+))? . -/
def motRE : RE :=
  rseq [.cls (fun c => c == 'm' || c == 'M'), rstr "ot",
        .opt (.alt (rstr "ion") (.lit '.')),
        rplus isSpaceB, .group 1 (yearSerial (repN dig 2)), pageOpt]

/-- Lookup of m.group(i): first capture recorded for index i, none when the
group did not participate in the match. -/
def capGet (i : Nat) : Caps → Option String
  | [] => none
  | (j, v) :: rest => if j = i then some v else capGet i rest

/-- Whitespace normalization re.sub of \s+ by a single space, one character
at a time; the flag records whether the previous character was whitespace. -/
def normWsGo : Bool → List Char → List Char
  | _, [] => []
  | prevSp, c :: rest =>
      if isSpaceB c then
        if prevSp then normWsGo true rest
        else ' ' :: normWsGo true rest
      else c :: normWsGo false rest

/-- Whitespace normalization applied to a string. -/
def normWs (s : String) : String := String.mk (normWsGo false s.toList)

/-- First loop of extract_citations: NJA matches, whitespace-normalized
whole match as key, page always None. -/
def njaPairs (text : String) : List (String × Option String) :=
  (scan njaRE text.toList).map fun m => (normWs m.1, none)

/-- Second loop of extract_citations: key is 'Prop. ' + group 1, page is
group 2. -/
def propPairs (text : String) : List (String × Option String) :=
  (scan propRE text.toList).map fun m => ("Prop. " ++ (capGet 1 m.2).getD "", capGet 2 m.2)

/-- Third loop of extract_citations: key is the whitespace-normalized
group 1, page is group 2. -/
def souPairs (text : String) : List (String × Option String) :=
  (scan souRE text.toList).map fun m => (normWs ((capGet 1 m.2).getD ""), capGet 2 m.2)

/-- Fourth loop of extract_citations: key is 'bet. ' + group 1, page is
group 2. -/
def betPairs (text : String) : List (String × Option String) :=
  (scan betRE text.toList).map fun m => ("bet. " ++ (capGet 1 m.2).getD "", capGet 2 m.2)

/-- Fifth loop of extract_citations: key is 'Mot. ' + group 1, page is
group 2. -/
def motPairs (text : String) : List (String × Option String) :=
  (scan motRE text.toList).map fun m => ("Mot. " ++ (capGet 1 m.2).getD "", capGet 2 m.2)

/-- Generator extract_citations, with the already-extracted text as input
(PDF text extraction is an external collaborator): the five family scans in
source order, concatenated. -/
def extract_citations (text : String) : List (String × Option String) :=
  njaPairs text ++ propPairs text ++ souPairs text ++ betPairs text ++ motPairs text

/-- Lookup in the citations mapping, modelled as an association list in
insertion order with unique keys, as a Python dict is. -/
def lookupA (k : String) : List (String × Finset String) → Option (Finset String)
  | [] => none
  | (k1, v) :: rest => if k1 = k then some v else lookupA k rest

/-- The statement citations[citation].add(page) on a defaultdict(set):
add the page to the existing key's set, or append the key with a singleton
set. -/
def addPage (k p : String) : List (String × Finset String) → List (String × Finset String)
  | [] => [(k, {p})]
  | (k1, v) :: rest =>
      if k1 = k then (k1, insert p v) :: rest else (k1, v) :: addPage k p rest

/-- The bare subscript citations[citation] on a defaultdict(set): create the
key with an empty set when absent, otherwise leave the mapping unchanged. -/
def ensureKey (k : String) : List (String × Finset String) → List (String × Finset String)
  | [] => [(k, ∅)]
  | (k1, v) :: rest =>
      if k1 = k then (k1, v) :: rest else (k1, v) :: ensureKey k rest

/-- Python truthiness of the page value in the test if page: both None and
the empty string are falsy. -/
def pageTruthy : Option String → Bool
  | none => false
  | some p => !(p == "")

/-- One iteration of the aggregation loop over extracted pairs. -/
def aggStep (m : List (String × Finset String)) (kp : String × Option String) :
    List (String × Finset String) :=
  if pageTruthy kp.2 then addPage kp.1 (kp.2.getD "") m else ensureKey kp.1 m

/-- The aggregation loop of the main loop: fold the extracted pairs into the
citations mapping, starting from an empty defaultdict(set). -/
def aggregate (pairs : List (String × Option String)) : List (String × Finset String) :=
  pairs.foldl aggStep []

/-- Lookup in the memoization cache, kept as a recency list with the most
recently used entry first. -/
def lruFind (k : String) : List (String × List String) → Option (List String)
  | [] => none
  | (k1, v) :: rest => if k1 = k then some v else lruFind k rest

/-- Removal of a key from the recency list. -/
def lruErase (k : String) : List (String × List String) → List (String × List String)
  | [] => []
  | (k1, v) :: rest => if k1 = k then rest else (k1, v) :: lruErase k rest

/-- One call through the lru_cache(maxsize = cap) wrapper applied to
query_legal_citation, over an abstract external lookup ext: returns the
result, the updated cache, and the number of external lookups issued (0 on
a cache hit, 1 on a miss). A hit moves its entry to the front; a miss
inserts the fresh entry at the front and truncates to capacity, dropping
entries from the least recently used end. -/
def lruCall (cap : Nat) (ext : String → List String)
    (c : List (String × List String)) (k : String) :
    List String × List (String × List String) × Nat :=
  match lruFind k c with
  | some v => (v, (k, v) :: lruErase k c, 0)
  | none => (ext k, ((k, ext k) :: c).take cap, 1)

/-- Cache bound used in the source: lru_cache with maxsize 2 to the 15. -/
def lruMaxsize : Nat := 2 ^ 15

/-- Every cached entry holds exactly the external lookup result for its key
(cache entries are a pure function of the key). -/
def CacheCoherent (ext : String → List String) (c : List (String × List String)) : Prop :=
  ∀ kv ∈ c, kv.2 = ext kv.1

/-- One discovery-query binding: item id, document url, decision date, and
the optional title (the SPARQL OPTIONAL clause). -/
structure Binding where
  item : String
  url : String
  date : String
  title : Option String
deriving DecidableEq, Repr

/-- Provenance reference triple attached to every statement of a decision:
document url, optional title, decision date, retrieval date. -/
structure RefTriple where
  refUrl : String
  title : Option String
  date : String
  retrieved : String
deriving DecidableEq, Repr

/-- Reference construction of the main loop (the try and except blocks at
its head). With a title present, the reference carries url, title, this
decision's date and the retrieval date, and the ref_date variable is set to
this decision's date. With the title absent, the lookup of
binding title raises before ref_date is assigned, and the except block
builds the reference from the current value of the ref_date variable: the
stale date of the last decision that had a title, or, when no earlier
decision assigned it, an unbound-variable NameError, modelled as an error.
Returns the triple together with the new value of ref_date. -/
def buildRefs (refDateVar : Option String) (b : Binding) (retrieved : String) :
    Except Unit (RefTriple × String) :=
  match b.title with
  | some t => .ok (⟨b.url, some t, b.date, retrieved⟩, b.date)
  | none =>
      match refDateVar with
      | some d => .ok (⟨b.url, none, d, retrieved⟩, d)
      | none => .error ()

/-- Diagnostics printed by the main loop. -/
inductive Diag where
  | fetchError (item : String)
  | parseError (item : String)
  | noItem (item : String) (key : String)
  | multiple (item : String) (key : String) (listed : List String)
  | editError (item : String)
deriving DecidableEq, Repr

/-- One cites statement: target item, page qualifiers, provenance
reference. -/
structure Statement where
  target : String
  qualifiers : Finset String
  refs : RefTriple
deriving DecidableEq

/-- Per-key loop of the main loop (for citation, pages in citations.items()):
resolve the key; an empty candidate list logs a no-item diagnostic and
continues, more than one candidate logs a multiple-items diagnostic that
lists the item ids of the run's discovery bindings (exactly as the source's
print expression does) and continues, and exactly one candidate appends a
statement targeting it with the page set as qualifiers. A resolver failure
propagates out of the loop, carrying the diagnostics already printed. -/
def resolveLoop (resolve : String → Except Unit (List String))
    (discoveryItems : List String) (item : String) (refs : RefTriple) :
    List (String × Finset String) → Except (List Diag) (List Statement × List Diag)
  | [] => .ok ([], [])
  | (k, pages) :: rest =>
      match resolve k with
      | .error _ => .error []
      | .ok [] =>
          match resolveLoop resolve discoveryItems item refs rest with
          | .error ds => .error (Diag.noItem item k :: ds)
          | .ok (sts, ds) => .ok (sts, Diag.noItem item k :: ds)
      | .ok [t] =>
          match resolveLoop resolve discoveryItems item refs rest with
          | .error ds => .error ds
          | .ok (sts, ds) => .ok (⟨t, pages, refs⟩ :: sts, ds)
      | .ok (_ :: _ :: _) =>
          match resolveLoop resolve discoveryItems item refs rest with
          | .error ds => .error (Diag.multiple item k discoveryItems :: ds)
          | .ok (sts, ds) => .ok (sts, Diag.multiple item k discoveryItems :: ds)

/-- Outcome of the fetch and parse steps for one document url: the requests
try block failing with a transport error, the parsing try block failing, or
the extracted document text. -/
inductive FetchOutcome where
  | fetchFail : FetchOutcome
  | parseFail : FetchOutcome
  | text : String → FetchOutcome

/-- External collaborators of one run: the resolver behind
query_legal_citation (which may fail with a transport error), the combined
fetch and text-extraction outcome per url, write success per item, and the
item ids of the run's discovery-query bindings. -/
structure Env where
  resolve : String → Except Unit (List String)
  fetchRes : String → FetchOutcome
  writeOk : String → Bool
  discoveryItems : List String

/-- Failure classes that escape the body of the run loop. -/
inductive FatalKind where
  | nameError : FatalKind
  | lookupError : FatalKind
  | writeError : FatalKind
deriving DecidableEq, Repr

/-- An escaping failure together with the diagnostics printed before it. -/
structure ProcFail where
  kind : FatalKind
  logs : List Diag
deriving DecidableEq, Repr

/-- Body of the run loop for one discovery binding: build the provenance
reference, fetch the document, extract and aggregate citations, resolve
each key building statements, and write when at least one statement was
built. Fetch and parse failures are logged and the decision is skipped;
an unbound ref_date (NameError), a resolver transport error, and a write
failure escape. On a write failure the edit-error diagnostic is printed
before re-raising. Returns the new value of the ref_date variable and the
diagnostics printed. -/
def processDecision (env : Env) (retrieved : String) (refDateVar : Option String)
    (b : Binding) : Except ProcFail (Option String × List Diag) :=
  match buildRefs refDateVar b retrieved with
  | .error _ => .error ⟨.nameError, []⟩
  | .ok (refs, newDate) =>
      match env.fetchRes b.url with
      | .fetchFail => .ok (some newDate, [Diag.fetchError b.item])
      | .parseFail => .ok (some newDate, [Diag.parseError b.item])
      | .text t =>
          match resolveLoop env.resolve env.discoveryItems b.item refs
              (aggregate (extract_citations t)) with
          | .error ds => .error ⟨.lookupError, ds⟩
          | .ok (stmts, ds) =>
              if stmts = [] then .ok (some newDate, ds)
              else if env.writeOk b.item then .ok (some newDate, ds)
              else .error ⟨.writeError, ds ++ [Diag.editError b.item]⟩

/-- Run loop over the discovery bindings, threading the ref_date variable.
An escaping failure aborts the whole run; on completion, all diagnostics
and the item ids of the processed decisions are returned. -/
def runLoop (env : Env) (retrieved : String) :
    Option String → List Binding → Except ProcFail (List Diag × List String)
  | _, [] => .ok ([], [])
  | refDateVar, b :: rest =>
      match processDecision env retrieved refDateVar b with
      | .error f => .error f
      | .ok (newVar, ds) =>
          match runLoop env retrieved newVar rest with
          | .error f => .error f
          | .ok (ds2, items) => .ok (ds ++ ds2, b.item :: items)

/-- Pages contributed to key k by a pair sequence: the truthy page values of
the pairs carrying k, as a set. -/
def pagesOf (k : String) : List (String × Option String) → Finset String
  | [] => ∅
  | kp :: rest =>
      if (kp.1 == k) && pageTruthy kp.2 then insert (kp.2.getD "") (pagesOf k rest)
      else pagesOf k rest

lemma mem_pagesOf (k q : String) (pairs : List (String × Option String)) :
    q ∈ pagesOf k pairs ↔ (k, some q) ∈ pairs ∧ q ≠ "" := by
  induction pairs with
  | nil => simp [pagesOf]
  | cons kp rest ih =>
      obtain ⟨k1, p1⟩ := kp
      simp only [pagesOf, List.mem_cons]
      by_cases hk : k1 = k
      · subst hk
        cases p1 with
        | none =>
            rw [if_neg (by simp [pageTruthy]), ih]
            constructor
            · rintro ⟨h1, h2⟩
              exact ⟨Or.inr h1, h2⟩
            · rintro ⟨h1 | h1, h2⟩
              · exact absurd h1 (by simp)
              · exact ⟨h1, h2⟩
        | some q1 =>
            by_cases hq1 : q1 = ""
            · subst hq1
              rw [if_neg (by simp [pageTruthy]), ih]
              constructor
              · rintro ⟨h1, h2⟩
                exact ⟨Or.inr h1, h2⟩
              · rintro ⟨h1 | h1, h2⟩
                · simp only [Prod.mk.injEq, Option.some.injEq] at h1
                  exact absurd h1.2 h2
                · exact ⟨h1, h2⟩
            · rw [if_pos (by simp [pageTruthy, hq1])]
              simp only [Finset.mem_insert, Option.getD_some, ih]
              constructor
              · rintro (rfl | ⟨h1, h2⟩)
                · exact ⟨Or.inl rfl, hq1⟩
                · exact ⟨Or.inr h1, h2⟩
              · rintro ⟨h1 | h1, h2⟩
                · simp only [Prod.mk.injEq, Option.some.injEq] at h1
                  exact Or.inl h1.2
                · exact Or.inr ⟨h1, h2⟩
      · rw [if_neg (by simp [hk]), ih]
        constructor
        · rintro ⟨h1, h2⟩
          exact ⟨Or.inr h1, h2⟩
        · rintro ⟨h1 | h1, h2⟩
          · simp only [Prod.mk.injEq] at h1
            exact absurd h1.1.symm hk
          · exact ⟨h1, h2⟩

lemma lookupA_addPage_self (k p : String) (m : List (String × Finset String)) :
    lookupA k (addPage k p m) = some (insert p ((lookupA k m).getD ∅)) := by
  induction m with
  | nil => simp [addPage, lookupA]
  | cons kv rest ih =>
      obtain ⟨k1, v⟩ := kv
      by_cases hk : k1 = k
      · subst hk; simp [addPage, lookupA]
      · simp [addPage, lookupA, hk, ih]

lemma lookupA_addPage_ne (k k1 p : String) (m : List (String × Finset String))
    (h : k1 ≠ k) : lookupA k (addPage k1 p m) = lookupA k m := by
  induction m with
  | nil => simp [addPage, lookupA, h]
  | cons kv rest ih =>
      obtain ⟨k2, v⟩ := kv
      by_cases hk2 : k2 = k1
      · subst hk2; simp [addPage, lookupA, h]
      · by_cases hk3 : k2 = k
        · subst hk3; simp [addPage, lookupA, hk2]
        · simp [addPage, lookupA, hk2, hk3, ih]

lemma lookupA_ensureKey_self (k : String) (m : List (String × Finset String)) :
    lookupA k (ensureKey k m) = some ((lookupA k m).getD ∅) := by
  induction m with
  | nil => simp [ensureKey, lookupA]
  | cons kv rest ih =>
      obtain ⟨k1, v⟩ := kv
      by_cases hk : k1 = k
      · subst hk; simp [ensureKey, lookupA]
      · simp [ensureKey, lookupA, hk, ih]

lemma lookupA_ensureKey_ne (k k1 : String) (m : List (String × Finset String))
    (h : k1 ≠ k) : lookupA k (ensureKey k1 m) = lookupA k m := by
  induction m with
  | nil => simp [ensureKey, lookupA, h]
  | cons kv rest ih =>
      obtain ⟨k2, v⟩ := kv
      by_cases hk2 : k2 = k1
      · subst hk2; simp [ensureKey, lookupA, h]
      · by_cases hk3 : k2 = k
        · subst hk3; simp [ensureKey, lookupA, hk2]
        · simp [ensureKey, lookupA, hk2, hk3, ih]

/-- Characterization of the aggregation fold: the page set looked up after
folding is the page set present in the accumulator joined with the pages
the pair sequence contributes, and a key is present after folding exactly
when it was present before or occurs in the sequence. -/
lemma lookupA_foldl (pairs : List (String × Option String))
    (acc : List (String × Finset String)) (k : String) :
    lookupA k (pairs.foldl aggStep acc) =
      match lookupA k acc with
      | some fs => some (fs ∪ pagesOf k pairs)
      | none =>
          if k ∈ pairs.map Prod.fst then some (pagesOf k pairs) else none := by
  induction pairs generalizing acc with
  | nil =>
      cases h : lookupA k acc with
      | none => simp [List.foldl, h]
      | some fs => simp [List.foldl, h, pagesOf]
  | cons kp rest ih =>
      obtain ⟨k1, p1⟩ := kp
      rw [List.foldl_cons, ih]
      by_cases hk : k1 = k
      · subst hk
        cases htr : pageTruthy p1 with
        | true =>
            have hstep : aggStep acc (k1, p1) = addPage k1 (p1.getD "") acc := by
              simp [aggStep, htr]
            rw [hstep, lookupA_addPage_self]
            have hpages : pagesOf k1 ((k1, p1) :: rest) =
                insert (p1.getD "") (pagesOf k1 rest) := by
              simp [pagesOf, htr]
            cases h : lookupA k1 acc with
            | none => simp [h, hpages, Finset.insert_eq]
            | some fs =>
                simp only [Option.getD_some, h, hpages]
                congr 1
                rw [Finset.insert_union, Finset.union_insert]
        | false =>
            have hstep : aggStep acc (k1, p1) = ensureKey k1 acc := by
              simp [aggStep, htr]
            rw [hstep, lookupA_ensureKey_self]
            have hpages : pagesOf k1 ((k1, p1) :: rest) = pagesOf k1 rest := by
              simp [pagesOf, htr]
            cases h : lookupA k1 acc with
            | none => simp [h, hpages]
            | some fs => simp only [Option.getD_some, h, hpages]
      · have hstep : lookupA k (aggStep acc (k1, p1)) = lookupA k acc := by
          unfold aggStep
          by_cases htr : pageTruthy (k1, p1).2
          · rw [if_pos htr]
            exact lookupA_addPage_ne k k1 ((k1, p1).2.getD "") acc hk
          · rw [if_neg htr]
            exact lookupA_ensureKey_ne k k1 acc hk
        have hpages : pagesOf k ((k1, p1) :: rest) = pagesOf k rest := by
          simp [pagesOf, hk]
        rw [hstep]
        cases h : lookupA k acc with
        | none =>
            have hk2 : k ≠ k1 := fun h2 => hk h2.symm
            by_cases hm : k ∈ List.map Prod.fst rest
            · simp [h, hpages, hm]
            · simp [h, hpages, hm, hk2]
        | some fs => simp [h, hpages]

lemma lookupA_eq_none_iff (k : String) (m : List (String × Finset String)) :
    lookupA k m = none ↔ k ∉ m.map Prod.fst := by
  induction m with
  | nil => simp [lookupA]
  | cons kv rest ih =>
      obtain ⟨k1, v⟩ := kv
      by_cases hk : k1 = k
      · subst hk; simp [lookupA]
      · simp [lookupA, hk, ih, Ne.symm hk]

lemma map_fst_addPage (k p : String) (m : List (String × Finset String)) :
    (addPage k p m).map Prod.fst =
      if k ∈ m.map Prod.fst then m.map Prod.fst else m.map Prod.fst ++ [k] := by
  induction m with
  | nil => simp [addPage]
  | cons kv rest ih =>
      obtain ⟨k1, v⟩ := kv
      by_cases hk : k1 = k
      · subst hk; simp [addPage]
      · simp only [addPage, hk, if_neg, not_false_eq_true, List.map_cons, ih]
        by_cases hmem : k ∈ rest.map Prod.fst
        · simp [hmem, Ne.symm hk]
        · simp [hmem, Ne.symm hk]

lemma map_fst_ensureKey (k : String) (m : List (String × Finset String)) :
    (ensureKey k m).map Prod.fst =
      if k ∈ m.map Prod.fst then m.map Prod.fst else m.map Prod.fst ++ [k] := by
  induction m with
  | nil => simp [ensureKey]
  | cons kv rest ih =>
      obtain ⟨k1, v⟩ := kv
      by_cases hk : k1 = k
      · subst hk; simp [ensureKey]
      · simp only [ensureKey, hk, if_neg, not_false_eq_true, List.map_cons, ih]
        by_cases hmem : k ∈ rest.map Prod.fst
        · simp [hmem, Ne.symm hk]
        · simp [hmem, Ne.symm hk]

lemma nodup_foldl_aggStep (pairs : List (String × Option String))
    (acc : List (String × Finset String)) (h : (acc.map Prod.fst).Nodup) :
    ((pairs.foldl aggStep acc).map Prod.fst).Nodup := by
  induction pairs generalizing acc with
  | nil => exact h
  | cons kp rest ih =>
      rw [List.foldl_cons]
      refine ih (aggStep acc kp) ?_
      unfold aggStep
      by_cases htr : pageTruthy kp.2
      · rw [if_pos htr, map_fst_addPage]
        by_cases hmem : kp.1 ∈ acc.map Prod.fst
        · simpa [hmem] using h
        · rw [if_neg hmem]
          simp [List.nodup_append, h, hmem]
      · rw [if_neg htr, map_fst_ensureKey]
        by_cases hmem : kp.1 ∈ acc.map Prod.fst
        · simpa [hmem] using h
        · rw [if_neg hmem]
          simp [List.nodup_append, h, hmem]

/-- With a resolver that always succeeds, the per-key loop returns one
statement per key with a unique candidate, targeting that candidate with
the key's page set as qualifiers, and one diagnostic per key with zero or
several candidates. -/
lemma resolveLoop_ok_spec (resolve1 : String → List String) (items : List String)
    (item : String) (refs : RefTriple) (agg : List (String × Finset String)) :
    resolveLoop (fun k => Except.ok (resolve1 k)) items item refs agg =
      Except.ok
        (agg.filterMap fun kp =>
          match resolve1 kp.1 with
          | [t] => some ⟨t, kp.2, refs⟩
          | _ => none,
         agg.filterMap fun kp =>
          match resolve1 kp.1 with
          | [] => some (Diag.noItem item kp.1)
          | [_] => none
          | _ => some (Diag.multiple item kp.1 items)) := by
  induction agg with
  | nil => rfl
  | cons kp rest ih =>
      obtain ⟨k, pages⟩ := kp
      cases h : resolve1 k with
      | nil => simp [resolveLoop, h, ih, List.filterMap_cons]
      | cons t ts =>
          cases ts with
          | nil => simp [resolveLoop, h, ih, List.filterMap_cons]
          | cons t2 ts2 => simp [resolveLoop, h, ih, List.filterMap_cons]

lemma mem_ensureKey (k : String) (kv : String × Finset String)
    (m : List (String × Finset String)) (h : kv ∈ ensureKey k m) :
    kv ∈ m ∨ kv = (k, ∅) := by
  induction m with
  | nil => simpa [ensureKey] using h
  | cons kv1 rest ih =>
      obtain ⟨k1, v⟩ := kv1
      by_cases hk : k1 = k
      · subst hk
        rw [ensureKey, if_pos rfl] at h
        exact Or.inl h
      · rw [ensureKey, if_neg hk] at h
        rcases List.mem_cons.mp h with h1 | h1
        · exact Or.inl (List.mem_cons.mpr (Or.inl h1))
        · rcases ih h1 with h2 | h2
          · exact Or.inl (List.mem_cons.mpr (Or.inr h2))
          · exact Or.inr h2

/-- Folding pairs that all lack a page over an accumulator whose page sets
are all empty leaves every page set empty. -/
lemma foldl_aggStep_pages_empty (pairs : List (String × Option String))
    (hnone : ∀ pr ∈ pairs, pr.2 = (none : Option String))
    (acc : List (String × Finset String)) (hacc : ∀ kv ∈ acc, kv.2 = (∅ : Finset String)) :
    ∀ kv ∈ pairs.foldl aggStep acc, kv.2 = (∅ : Finset String) := by
  induction pairs generalizing acc with
  | nil => simpa using hacc
  | cons kp rest ih =>
      intro kv hkv
      rw [List.foldl_cons] at hkv
      have hp : kp.2 = none := hnone kp (List.mem_cons_self kp rest)
      have hstep : aggStep acc kp = ensureKey kp.1 acc := by
        simp [aggStep, hp, pageTruthy]
      rw [hstep] at hkv
      refine ih (fun pr hpr => hnone pr (List.mem_cons.mpr (Or.inr hpr)))
        (ensureKey kp.1 acc) ?_ kv hkv
      intro kv1 hkv1
      rcases mem_ensureKey kp.1 kv1 acc hkv1 with h1 | h1
      · exact hacc kv1 h1
      · rw [h1]

lemma lruFind_coherent (ext : String → List String) (c : List (String × List String))
    (k : String) (v : List String) (hcoh : CacheCoherent ext c)
    (h : lruFind k c = some v) : v = ext k := by
  induction c with
  | nil => simp [lruFind] at h
  | cons kv rest ih =>
      obtain ⟨k1, v1⟩ := kv
      by_cases hk : k1 = k
      · subst hk
        rw [lruFind, if_pos rfl] at h
        have h2 := hcoh (k1, v1) (List.mem_cons_self _ _)
        rw [← Option.some_inj.mp h]
        exact h2
      · rw [lruFind, if_neg hk] at h
        exact ih (fun kv hkv => hcoh kv (List.mem_cons.mpr (Or.inr hkv))) h

lemma mem_lruErase (k : String) (kv : String × List String)
    (c : List (String × List String)) (h : kv ∈ lruErase k c) : kv ∈ c := by
  induction c with
  | nil => simp [lruErase] at h
  | cons kv1 rest ih =>
      obtain ⟨k1, v1⟩ := kv1
      by_cases hk : k1 = k
      · subst hk
        rw [lruErase, if_pos rfl] at h
        exact List.mem_cons.mpr (Or.inr h)
      · rw [lruErase, if_neg hk] at h
        rcases List.mem_cons.mp h with h1 | h1
        · exact List.mem_cons.mpr (Or.inl h1)
        · exact List.mem_cons.mpr (Or.inr (ih h1))

/-- Single characterization of the aggregate mapping: a key is bound exactly
when it occurs in the pairs, and then to the pages the pairs contribute. -/
lemma lookupA_aggregate (pairs : List (String × Option String)) (k : String) :
    lookupA k (aggregate pairs) =
      if k ∈ pairs.map Prod.fst then some (pagesOf k pairs) else none := by
  rw [aggregate, lookupA_foldl]
  rfl

/-- C1: for every aggregated citation key of a decision, a resolver
returning zero candidates or more than one candidate contributes no
CitationLink statement for that key while processing continues with the
remaining keys, and a resolver returning exactly one candidate contributes
exactly one statement whose target is that candidate and whose page
qualifiers are exactly that key's aggregated page set: the statement list
of the per-key loop is the filterMap keeping precisely the uniquely
resolved keys. -/
theorem resolution_cardinality (resolve1 : String → List String)
    (items : List String) (item : String) (refs : RefTriple)
    (agg : List (String × Finset String)) :
    (resolveLoop (fun k => Except.ok (resolve1 k)) items item refs agg).map Prod.fst =
      Except.ok (agg.filterMap fun kp =>
        match resolve1 kp.1 with
        | [t] => some ⟨t, kp.2, refs⟩
        | _ => none) := by
  rw [resolveLoop_ok_spec]
  rfl

/-- C2 counterexample: the aggregation loop tests the page value with
Python truthiness, so a present but empty page string is treated like an
absent one: aggregating the single pair carrying key k and page the empty
string binds k to the empty page set, which does not contain the non-absent
page value of that pair, contradicting the claim that the bound set equals
the set of all non-absent page values. -/
theorem aggregation_truthiness_cex :
    aggregate [("k", some "")] = [("k", (∅ : Finset String))] ∧
    ¬ ("" ∈ (∅ : Finset String)) :=
  ⟨by decide, by decide⟩

/-- C2 amended: for every finite sequence of (key, page) pairs, each
distinct input key appears exactly once in the aggregated mapping (the key
list has no duplicates and holds exactly the input keys), the set bound to
a key equals the set of its non-absent and non-empty page values with
duplicates collapsed, and a key whose occurrences all carry an absent or
empty page is still present, bound to the empty set. -/
theorem aggregation_spec_amended (pairs : List (String × Option String)) :
    ((aggregate pairs).map Prod.fst).Nodup ∧
    (∀ k, (∃ fs, lookupA k (aggregate pairs) = some fs) ↔ k ∈ pairs.map Prod.fst) ∧
    (∀ k fs, lookupA k (aggregate pairs) = some fs →
      ∀ q, q ∈ fs ↔ ((k, some q) ∈ pairs ∧ q ≠ "")) := by
  refine ⟨nodup_foldl_aggStep pairs [] (by simp), ?_, ?_⟩
  · intro k
    rw [lookupA_aggregate]
    by_cases hm : k ∈ pairs.map Prod.fst
    · simp [hm]
    · simp [hm]
  · intro k fs h q
    rw [lookupA_aggregate] at h
    by_cases hm : k ∈ pairs.map Prod.fst
    · rw [if_pos hm] at h
      rw [← Option.some_inj.mp h]
      exact mem_pagesOf k q pairs
    · rw [if_neg hm] at h
      cases h

/-- C2 amended, witness at a concrete input. -/
theorem aggregation_spec_amended_witness :
    lookupA "a" (aggregate [("a", some "1"), ("b", none)]) = some {"1"} ∧
    ("1" ∈ ({"1"} : Finset String) ↔
      (("a", (some "1" : Option String)) ∈ [("a", some "1"), ("b", none)] ∧ "1" ≠ "")) :=
  ⟨by decide,
    (aggregation_spec_amended [("a", some "1"), ("b", none)]).2.2 "a" {"1"} (by decide) "1"⟩

/-- C9: end-to-end scenario 2: the text Prop. 2005/06:55 s. 12 extracts and
aggregates to the single key Prop. 2005/06:55 bound to the page set
holding exactly 12: the page marker is split into the qualifier set and is
not part of the key. -/
theorem prop_page_split_scenario :
    aggregate (extract_citations "Prop. 2005/06:55 s. 12") =
      [("Prop. 2005/06:55", ({"12"} : Finset String))] := by
  decide

/-- C10: every pair produced by the NJA pattern family has an absent page
component (the page marker stays inside the normalized key), aggregating
the NJA family output binds every key to an empty page set, and any
statement built from those keys by the per-key loop carries no page
qualifiers. -/
theorem nja_pairs_pageless (text : String) :
    (∀ pr ∈ njaPairs text, pr.2 = (none : Option String)) ∧
    (∀ kv ∈ aggregate (njaPairs text), kv.2 = (∅ : Finset String)) ∧
    (∀ (resolve1 : String → List String) (items : List String) (item : String)
        (refs : RefTriple) (stmts : List Statement) (diags : List Diag),
      resolveLoop (fun k => Except.ok (resolve1 k)) items item refs
          (aggregate (njaPairs text)) = Except.ok (stmts, diags) →
      ∀ st ∈ stmts, st.qualifiers = (∅ : Finset String)) := by
  have hnone : ∀ pr ∈ njaPairs text, pr.2 = (none : Option String) := by
    intro pr hpr
    obtain ⟨m, _, rfl⟩ := List.mem_map.mp hpr
    rfl
  have hempty : ∀ kv ∈ aggregate (njaPairs text), kv.2 = (∅ : Finset String) :=
    foldl_aggStep_pages_empty (njaPairs text) hnone [] (by simp)
  refine ⟨hnone, hempty, ?_⟩
  intro resolve1 items item refs stmts diags hloop st hst
  rw [resolveLoop_ok_spec] at hloop
  injection hloop with h2
  have h1 : ((aggregate (njaPairs text)).filterMap fun kp =>
      match resolve1 kp.1 with
      | [t] => some ⟨t, kp.2, refs⟩
      | _ => none) = stmts := congrArg Prod.fst h2
  rw [← h1] at hst
  obtain ⟨kp, hkp, hf⟩ := List.mem_filterMap.mp hst
  cases hr : resolve1 kp.1 with
  | nil => simp [hr] at hf
  | cons t ts =>
      cases ts with
      | nil =>
          simp only [hr] at hf
          have hst2 := Option.some_inj.mp hf
          rw [← hst2]
          exact hempty kp hkp
      | cons t2 ts2 => simp [hr] at hf

/-- C10, witness at a concrete input. -/
theorem nja_pairs_pageless_witness :
    (("NJA 2019 s. 45", (none : Option String)) ∈ njaPairs "NJA 2019 s. 45") ∧
    ("NJA 2019 s. 45", (none : Option String)).2 = (none : Option String) :=
  ⟨by decide,
    (nja_pairs_pageless "NJA 2019 s. 45").1 ("NJA 2019 s. 45", none) (by decide)⟩

lemma lruFind_cons_self (k : String) (v : List String)
    (c : List (String × List String)) : lruFind k ((k, v) :: c) = some v := by
  rw [lruFind, if_pos rfl]

/-- C3: the resolver wrapper is memoized with an LRU cache: from any
coherent cache with capacity at least one, a call for a key returns exactly
the external lookup result (caching does not change results), the
immediately repeated call for the same key is a cache hit issuing no
external lookup, the two calls together issue at most one external lookup,
coherence is preserved, and when the cache is full and the key absent the
inserted entry evicts exactly the least recently used (last) entry. -/
theorem resolver_memoization (cap : Nat) (ext : String → List String)
    (c : List (String × List String)) (k : String)
    (hcap : 1 ≤ cap) (hcoh : CacheCoherent ext c) :
    (lruCall cap ext c k).1 = ext k ∧
    (lruCall cap ext (lruCall cap ext c k).2.1 k).1 = ext k ∧
    (lruCall cap ext (lruCall cap ext c k).2.1 k).2.2 = 0 ∧
    (lruCall cap ext c k).2.2 + (lruCall cap ext (lruCall cap ext c k).2.1 k).2.2 ≤ 1 ∧
    CacheCoherent ext (lruCall cap ext c k).2.1 ∧
    (c.length = cap → lruFind k c = none →
      (lruCall cap ext c k).2.1 = (k, ext k) :: c.dropLast) := by
  obtain ⟨m, rfl⟩ : ∃ m, cap = m + 1 := ⟨cap - 1, by omega⟩
  cases hfind : lruFind k c with
  | some v =>
      have hv : v = ext k := lruFind_coherent ext c k v hcoh hfind
      have e1 : lruCall (m + 1) ext c k = (v, (k, v) :: lruErase k c, 0) := by
        rw [lruCall, hfind]
      have e2 : lruCall (m + 1) ext ((k, v) :: lruErase k c) k =
          (v, (k, v) :: lruErase k ((k, v) :: lruErase k c), 0) := by
        rw [lruCall, lruFind_cons_self]
      rw [e1]
      refine ⟨hv, ?_, ?_, ?_, ?_, ?_⟩
      · show (lruCall (m + 1) ext ((k, v) :: lruErase k c) k).1 = ext k
        rw [e2]
        exact hv
      · show (lruCall (m + 1) ext ((k, v) :: lruErase k c) k).2.2 = 0
        rw [e2]
      · show 0 + (lruCall (m + 1) ext ((k, v) :: lruErase k c) k).2.2 ≤ 1
        rw [e2]
        show (0 : Nat) + 0 ≤ 1
        decide
      · show CacheCoherent ext ((k, v) :: lruErase k c)
        intro kv hkv
        rcases List.mem_cons.mp hkv with h1 | h1
        · rw [h1, hv]
        · exact hcoh kv (mem_lruErase k kv c h1)
      · intro _ habs
        exact Option.noConfusion habs
  | none =>
      have e1 : lruCall (m + 1) ext c k = (ext k, (k, ext k) :: c.take m, 1) := by
        rw [lruCall, hfind, List.take_succ_cons]
      have e2 : lruCall (m + 1) ext ((k, ext k) :: c.take m) k =
          (ext k, (k, ext k) :: lruErase k ((k, ext k) :: c.take m), 0) := by
        rw [lruCall, lruFind_cons_self]
      rw [e1]
      refine ⟨rfl, ?_, ?_, ?_, ?_, ?_⟩
      · show (lruCall (m + 1) ext ((k, ext k) :: c.take m) k).1 = ext k
        rw [e2]
      · show (lruCall (m + 1) ext ((k, ext k) :: c.take m) k).2.2 = 0
        rw [e2]
      · show 1 + (lruCall (m + 1) ext ((k, ext k) :: c.take m) k).2.2 ≤ 1
        rw [e2]
        show (1 : Nat) + 0 ≤ 1
        decide
      · show CacheCoherent ext ((k, ext k) :: c.take m)
        intro kv hkv
        rcases List.mem_cons.mp hkv with h1 | h1
        · rw [h1]
        · exact hcoh kv (List.take_subset m c h1)
      · intro hlen _
        show (k, ext k) :: c.take m = (k, ext k) :: c.dropLast
        rw [List.dropLast_eq_take c, hlen]
        simp

/-- C3, witness at a concrete input: empty cache of the source's capacity,
constant external lookup. -/
theorem resolver_memoization_witness :
    (lruCall lruMaxsize (fun _ => ["Q1"]) [] "k").1 = ["Q1"] ∧
    (lruCall lruMaxsize (fun _ => ["Q1"])
        (lruCall lruMaxsize (fun _ => ["Q1"]) [] "k").2.1 "k").1 = ["Q1"] ∧
    (lruCall lruMaxsize (fun _ => ["Q1"])
        (lruCall lruMaxsize (fun _ => ["Q1"]) [] "k").2.1 "k").2.2 = 0 ∧
    (lruCall lruMaxsize (fun _ => ["Q1"]) [] "k").2.2 +
      (lruCall lruMaxsize (fun _ => ["Q1"])
        (lruCall lruMaxsize (fun _ => ["Q1"]) [] "k").2.1 "k").2.2 ≤ 1 ∧
    CacheCoherent (fun _ => ["Q1"]) (lruCall lruMaxsize (fun _ => ["Q1"]) [] "k").2.1 ∧
    (([] : List (String × List String)).length = lruMaxsize →
      lruFind "k" [] = none →
      (lruCall lruMaxsize (fun _ => ["Q1"]) [] "k").2.1 =
        ("k", ["Q1"]) :: ([] : List (String × List String)).dropLast) :=
  resolver_memoization lruMaxsize (fun _ => ["Q1"]) [] "k" (by decide)
    (fun kv hkv => absurd hkv (List.not_mem_nil kv))

/-- C4: evaluation at the failing input: a run whose first discovered
decision lacks a title aborts with the unbound-variable NameError instead
of building a title-less reference and continuing: the except block reads
the ref_date variable, which is assigned only after the title lookup has
succeeded, so it is unbound when no earlier decision carried a title. -/
theorem missing_title_nameerror_eval :
    buildRefs none ⟨"D1", "u", "2019-01-01", none⟩ "2020-05-01" = Except.error () ∧
    runLoop ⟨fun _ => Except.ok [], fun _ => FetchOutcome.text "", fun _ => true, []⟩
        "2020-05-01" none [⟨"D1", "u", "2019-01-01", none⟩] =
      Except.error ⟨FatalKind.nameError, []⟩ :=
  ⟨rfl, rfl⟩

/-- C5 counterexample: a transport error from the citation lookup is not
caught by the per-decision processing: with a resolver that fails on the
decision's single key, the run loop aborts with a lookup failure instead of
logging the citation and skipping it. -/
theorem lookup_error_escapes_cex :
    runLoop ⟨fun _ => Except.error (), fun _ => FetchOutcome.text "NJA 2019 s. 45",
        fun _ => true, ["D1"]⟩ "r" none [⟨"D1", "u", "2019-01-01", some "t"⟩] =
      Except.error ⟨FatalKind.lookupError, []⟩ :=
  rfl

/-- C5 amended: a lookup transport error is not handled at all: when the
resolver fails on the first aggregated key of a decision, the failure
escapes the per-citation loop and the per-decision processing into the run
loop and aborts the run; the citation is not skipped and no diagnostic is
emitted for it. -/
theorem lookup_error_propagates (env : Env) (retr : String) (v : Option String)
    (b : Binding) (tt t k : String) (ps : Finset String)
    (restAgg : List (String × Finset String)) (rest : List Binding)
    (htitle : b.title = some tt)
    (hfetch : env.fetchRes b.url = FetchOutcome.text t)
    (hagg : aggregate (extract_citations t) = (k, ps) :: restAgg)
    (hres : env.resolve k = Except.error ()) :
    processDecision env retr v b = Except.error ⟨FatalKind.lookupError, []⟩ ∧
    runLoop env retr v (b :: rest) = Except.error ⟨FatalKind.lookupError, []⟩ := by
  have hrefs : buildRefs v b retr =
      Except.ok (⟨b.url, some tt, b.date, retr⟩, b.date) := by
    rw [buildRefs.eq_def, htitle]
  have hproc : processDecision env retr v b =
      Except.error ⟨FatalKind.lookupError, []⟩ := by
    simp only [processDecision.eq_def, hrefs, hfetch]
    rw [hagg]
    simp only [resolveLoop, hres]
  exact ⟨hproc, by simp only [runLoop, hproc]⟩

/-- C5 amended, witness at a concrete input. -/
theorem lookup_error_propagates_witness :
    processDecision ⟨fun _ => Except.error (), fun _ => FetchOutcome.text "NJA 2019 s. 45",
        fun _ => true, ["D1"]⟩ "r" none ⟨"D1", "u", "2019-01-01", some "t"⟩ =
      Except.error ⟨FatalKind.lookupError, []⟩ ∧
    runLoop ⟨fun _ => Except.error (), fun _ => FetchOutcome.text "NJA 2019 s. 45",
        fun _ => true, ["D1"]⟩ "r" none [⟨"D1", "u", "2019-01-01", some "t"⟩] =
      Except.error ⟨FatalKind.lookupError, []⟩ :=
  lookup_error_propagates
    ⟨fun _ => Except.error (), fun _ => FetchOutcome.text "NJA 2019 s. 45",
        fun _ => true, ["D1"]⟩
    "r" none ⟨"D1", "u", "2019-01-01", some "t"⟩ "t" "NJA 2019 s. 45"
    "NJA 2019 s. 45" ∅ [] [] rfl rfl (by decide) rfl

/-- C6: evaluation at the failing input: when resolution returns the two
candidates Q1 and Q2 for key k, zero links are produced, but the single
ambiguity diagnostic lists the item ids of the run's discovery-query
bindings (here D1) rather than the candidate ids Q1 and Q2: the print
expression iterates over the whole discovery result instead of the current
key's candidate list. -/
theorem ambiguity_diag_lists_bindings_eval :
    resolveLoop (fun _ => Except.ok ["Q1", "Q2"]) ["D1"] "D1"
        ⟨"u", none, "d", "r"⟩ [("k", ∅)] =
      Except.ok ([], [Diag.multiple "D1" "k" ["D1"]]) ∧
    ["D1"] ≠ ["Q1", "Q2"] :=
  ⟨rfl, by decide⟩

/-- C7 counterexample: the NJA family keyword is matched case-sensitively,
so changing the letter case of a family keyword occurrence does change the
set of extracted pairs: lowercasing NJA removes the extraction entirely. -/
theorem keyword_case_cex :
    extract_citations "NJA 2019 s. 45" = [("NJA 2019 s. 45", none)] ∧
    extract_citations "nja 2019 s. 45" = [] :=
  ⟨by decide, by decide⟩

/-- C7 amended: only the leading letter of the prop, bet and mot family
keywords is case-insensitive (the character classes pP, bB and mM), while
the NJA and SOU keywords, and the letters after the first of the other
keywords, are case-sensitive: toggling the first letter of prop, bet or mot
occurrences leaves extraction unchanged, while lowercasing NJA or SOU, or
uppercasing the rest of the prop keyword, removes the match. -/
theorem keyword_case_amended :
    extract_citations "prop. 2005/06:55" = extract_citations "Prop. 2005/06:55" ∧
    extract_citations "bet. 2019/20:JuU1" = extract_citations "Bet. 2019/20:JuU1" ∧
    extract_citations "mot. 2019/20:55" = extract_citations "Mot. 2019/20:55" ∧
    extract_citations "PROP. 2005/06:55" = [] ∧
    extract_citations "SOU 2019:5" = [("SOU 2019:5", none)] ∧
    extract_citations "sou 2019:5" = [] ∧
    extract_citations "NJA 2019 s. 45" ≠ extract_citations "nja 2019 s. 45" :=
  ⟨by decide, by decide, by decide, by decide, by decide, by decide, by decide⟩

/-- C8: when the knowledge-base write for a decision fails, the processor
prints the edit-error diagnostic for that decision as its last diagnostic
and re-raises, and the run loop aborts with that same failure no matter
which decisions remain: no subsequent decision is processed. -/
theorem write_failure_fatal (env : Env) (retr : String) (v : Option String)
    (b : Binding) (rest : List Binding) (pf : ProcFail)
    (h : processDecision env retr v b = Except.error pf)
    (hk : pf.kind = FatalKind.writeError) :
    pf.logs.getLast? = some (Diag.editError b.item) ∧
    runLoop env retr v (b :: rest) = Except.error pf := by
  have hrun : runLoop env retr v (b :: rest) = Except.error pf := by
    simp only [runLoop, h]
  refine ⟨?_, hrun⟩
  unfold processDecision at h
  split at h
  · injection h with h1
    rw [← h1] at hk
    cases hk
  · split at h
    · cases h
    · cases h
    · split at h
      · injection h with h1
        rw [← h1] at hk
        cases hk
      · split at h
        · cases h
        · split at h
          · cases h
          · injection h with h1
            rw [← h1]
            exact List.getLast?_concat _

/-- C8, witness at a concrete input. -/
theorem write_failure_fatal_witness :
    (⟨FatalKind.writeError, [Diag.editError "D1"]⟩ : ProcFail).logs.getLast? =
        some (Diag.editError "D1") ∧
    runLoop ⟨fun _ => Except.ok ["Q123"], fun _ => FetchOutcome.text "NJA 2019 s. 45",
        fun _ => false, ["D1"]⟩ "r" none [⟨"D1", "u", "2019-01-01", some "t"⟩] =
      Except.error ⟨FatalKind.writeError, [Diag.editError "D1"]⟩ :=
  write_failure_fatal
    ⟨fun _ => Except.ok ["Q123"], fun _ => FetchOutcome.text "NJA 2019 s. 45",
        fun _ => false, ["D1"]⟩
    "r" none ⟨"D1", "u", "2019-01-01", some "t"⟩ []
    ⟨FatalKind.writeError, [Diag.editError "D1"]⟩ rfl rfl

end Citations
